import Mathlib

/-!
Verification of the saegim anki-parser core against its specification.

Strings are modelled as `List Char` (Rust `String` is a sequence of Unicode
scalar values; `&str` comparison is byte-lexicographic, which coincides with
code-point-lexicographic order used here).  Byte buffers (`Vec<u8>`) are
modelled as `List Nat` with each element a byte value.
-/

set_option maxRecDepth 4000

/-! ## models.rs : AnkiDeck -/

/-- `name.contains("::")` — does the string contain an adjacent `::` pair? -/
def hasSep : List Char → Bool
  | ':' :: ':' :: _ => true
  | _ :: rest => hasSep rest
  | [] => false

/-- `name.rsplit("::").next()` — the suffix after the rightmost occurrence of
`"::"` (the whole string when there is none).  `rsplit` searches from the
right, so its first yield is the part after the rightmost match. -/
def afterLastSep : List Char → List Char
  | [] => []
  | c :: rest =>
    if hasSep rest then afterLastSep rest
    else if c = ':' ∧ rest.take 1 = [':'] then rest.drop 1
    else c :: rest

/-- `name.split("::")` — leftmost non-overlapping split on the two-character
separator, as Rust `str::split` does. -/
def splitSep : List Char → List (List Char)
  | [] => [[]]
  | ':' :: ':' :: rest => [] :: splitSep rest
  | c :: rest =>
    match splitSep rest with
    | h :: t => (c :: h) :: t
    | [] => [[c]]

/-- `parts.join("::")`. -/
def joinSep : List (List Char) → List Char
  | [] => []
  | [p] => p
  | p :: ps => p ++ ':' :: ':' :: joinSep ps

/-- A deck (`AnkiDeck` in models.rs): id, full hierarchical name, leaf name. -/
structure AnkiDeck where
  id : Int
  name : List Char
  short_name : List Char
deriving DecidableEq, Repr

namespace AnkiDeck

/-- `AnkiDeck::from_name`: `short_name = name.rsplit("::").next().unwrap_or(&name)`
(the `unwrap_or` never fires: `rsplit` always yields at least one part). -/
def from_name (id : Int) (name : List Char) : AnkiDeck :=
  { id := id, name := name, short_name := afterLastSep name }

/-- `AnkiDeck::is_root`: `!self.name.contains("::")`. -/
def is_root (d : AnkiDeck) : Bool :=
  !(hasSep d.name)

/-- `AnkiDeck::parent_path`: split on `"::"`, join all but the last part. -/
def parent_path (d : AnkiDeck) : Option (List Char) :=
  let parts := splitSep d.name
  if parts.length > 1 then some (joinSep parts.dropLast) else none

end AnkiDeck

/-! ## models.rs : AnkiMediaStore

The store is a `HashMap<String, Vec<u8>>` plus an ordered `Vec<String>` of
filenames.  The map is modelled as an association list (key-update-in-place);
iteration order of the map itself is never observed by the code. -/

/-- `HashMap::contains_key`. -/
def assocContains (m : List (List Char × List Nat)) (k : List Char) : Bool :=
  m.any (fun p => p.1 = k)

/-- `HashMap::insert` (overwrite in place, append when absent). -/
def assocSet : List (List Char × List Nat) → List Char → List Nat → List (List Char × List Nat)
  | [], k, v => [(k, v)]
  | (k', v') :: t, k, v => if k' = k then (k, v) :: t else (k', v') :: assocSet t k v

/-- `HashMap::get`. -/
def assocGet : List (List Char × List Nat) → List Char → Option (List Nat)
  | [], _ => none
  | (k', v') :: t, k => if k' = k then some v' else assocGet t k

structure AnkiMediaStore where
  data : List (List Char × List Nat)
  filenames_list : List (List Char)
deriving DecidableEq, Repr

namespace AnkiMediaStore

def new : AnkiMediaStore := { data := [], filenames_list := [] }

/-- `AnkiMediaStore::insert`: push the filename onto the ordered list only when
the data map does not yet hold the key, then write the data. -/
def insert (st : AnkiMediaStore) (filename : List Char) (d : List Nat) : AnkiMediaStore :=
  { data := assocSet st.data filename d
    filenames_list :=
      if !(assocContains st.data filename) then st.filenames_list ++ [filename]
      else st.filenames_list }

/-- `AnkiMediaStore::add_filename`: push only when neither the data map nor the
ordered list holds the name. -/
def add_filename (st : AnkiMediaStore) (filename : List Char) : AnkiMediaStore :=
  if !(assocContains st.data filename) && !(st.filenames_list.contains filename) then
    { st with filenames_list := st.filenames_list ++ [filename] }
  else st

/-- `AnkiMediaStore::filenames`. -/
def filenames (st : AnkiMediaStore) : List (List Char) :=
  st.filenames_list

/-- `AnkiMediaStore::data_for`. -/
def data_for (st : AnkiMediaStore) (filename : List Char) : Option (List Nat) :=
  assocGet st.data filename

/-- `AnkiMediaStore::count`. -/
def count (st : AnkiMediaStore) : Nat :=
  st.filenames_list.length

end AnkiMediaStore

/-- One public mutating operation on the store. -/
inductive MediaOp
  | insert (filename : List Char) (d : List Nat)
  | addFilename (filename : List Char)
deriving DecidableEq, Repr

/-- Run a sequence of store operations starting from the empty store. -/
def runMediaOps (ops : List MediaOp) : AnkiMediaStore :=
  ops.foldl
    (fun st op =>
      match op with
      | .insert f d => st.insert f d
      | .addFilename f => st.add_filename f)
    AnkiMediaStore.new

/-! ## database.rs : media-reference extraction

The two regex patterns are modelled directly, with Rust `regex` crate
leftmost-first (backtracking-equivalent) semantics specialised to each
pattern.  `captures_iter` yields successive non-overlapping matches, each
search resuming at the end of the previous match. -/

/-- Whitespace class `\s` (the inputs of interest are ASCII; the ASCII
whitespace characters of the Unicode class are modelled). -/
def isWsChar (c : Char) : Bool :=
  c = ' ' || c = '\t' || c = '\n' || c = '\r' || c = Char.ofNat 0x0B || c = Char.ofNat 0x0C

/-- Anchored match of `\[sound:([^\]]+)\]` at the head of `s`: returns the
total match length and the capture.  `[^\]]+` is greedy and cannot cross a
`]`, so it is the maximal non-`]` run which must be non-empty and followed
by `]`. -/
def trySoundAt (s : List Char) : Option (Nat × List Char) :=
  if ("[sound:".toList).isPrefixOf s then
    let t := s.drop 7
    let cap := t.takeWhile (fun c => !(c = ']'))
    if cap.length > 0 && (t.drop cap.length).take 1 = [']'] then
      some (7 + cap.length + 1, cap)
    else none
  else none

/-- All captures of `\[sound:([^\]]+)\]` over `s`, leftmost first,
non-overlapping (`captures_iter`).  The fuel argument of the worker only
bounds the recursion (every step consumes at least one character, so
starting fuel `s.length` is never exhausted); it has no semantic content. -/
def soundCapsGo : Nat → List Char → List (List Char)
  | _, [] => []
  | 0, _ => []
  | fuel + 1, c :: rest =>
    match trySoundAt (c :: rest) with
    | some (len, cap) => cap :: soundCapsGo fuel (rest.drop (len - 1))
    | none => soundCapsGo fuel rest

def soundCaps (s : List Char) : List (List Char) :=
  soundCapsGo s.length s

/-- The capture class `[^"'\s>]` of the img patterns. -/
def isImgCapChar (c : Char) : Bool :=
  !(c = '"' || c = Char.ofNat 39 || isWsChar c || c = '>')

/-- After `src=` has been consumed: `["']?([^"'\s>]+)["']?`.  The optional
opening quote is greedy; if it is consumed the capture must start after it,
and backtracking to the un-consumed alternative can never succeed because a
quote character is excluded from the capture class.  Returns the consumed
length and the capture. -/
def tryImgQuotedCap (p : List Char) : Option (Nat × List Char) :=
  match p with
  | [] => none
  | q :: p2 =>
    if q = '"' || q = Char.ofNat 39 then
      let cap := p2.takeWhile isImgCapChar
      if cap.length > 0 then
        let rest := p2.drop cap.length
        let closeLen := if (rest.take 1).any (fun c => c = '"' || c = Char.ofNat 39) then 1 else 0
        some (1 + cap.length + closeLen, cap)
      else none
    else
      let cap := (q :: p2).takeWhile isImgCapChar
      if cap.length > 0 then
        let rest := (q :: p2).drop cap.length
        let closeLen := if (rest.take 1).any (fun c => c = '"' || c = Char.ofNat 39) then 1 else 0
        some (cap.length + closeLen, cap)
      else none

/-- Backtracking over the greedy `[^>]+` of `<img[^>]+src=...`: try consuming
`k` characters (longest first, `k ≥ 1`), requiring `src=` immediately after.
`t` is the text following `<img`.  Returns the length consumed after `<img`
(including `src=` and the quoted capture) and the capture. -/
def tryImgSearch (t : List Char) : Nat → Option (Nat × List Char)
  | 0 => none
  | k + 1 =>
    if ("src=".toList).isPrefixOf (t.drop (k + 1)) then
      match tryImgQuotedCap (t.drop (k + 1 + 4)) with
      | some (len2, cap) => some ((k + 1) + 4 + len2, cap)
      | none => tryImgSearch t k
    else tryImgSearch t k

/-- Anchored match of the database.rs pattern
`<img[^>]+src=["']?([^"'\s>]+)["']?` at the head of `s`. -/
def tryImgRefAt (s : List Char) : Option (Nat × List Char) :=
  if ("<img".toList).isPrefixOf s then
    let t := s.drop 4
    let maxRun := (t.takeWhile (fun c => !(c = '>'))).length
    match tryImgSearch t maxRun with
    | some (len, cap) => some (4 + len, cap)
    | none => none
  else none

/-- All captures of the database.rs img pattern over `s` (`captures_iter`;
fuel as in `soundCapsGo`). -/
def imgCapsGo : Nat → List Char → List (List Char)
  | _, [] => []
  | 0, _ => []
  | fuel + 1, c :: rest =>
    match tryImgRefAt (c :: rest) with
    | some (len, cap) => cap :: imgCapsGo fuel (rest.drop (len - 1))
    | none => imgCapsGo fuel rest

def imgCaps (s : List Char) : List (List Char) :=
  imgCapsGo s.length s

/-- `extract_media_references` (database.rs): one loop over the fields; for
each field all sound captures are pushed, then all img captures. -/
def extract_media_references (fields : List (List Char)) : List (List Char) :=
  fields.foldl (fun refs f => refs ++ soundCaps f ++ imgCaps f) []

/-- Modelled from the claim's words (two independent sequential scans over the
whole field set: first every sound match across all fields, then separately
every image match across all fields), for comparison with the source
definition. -/
def extract_media_references_globalTwoPass (fields : List (List Char)) : List (List Char) :=
  (fields.map soundCaps).flatten ++ (fields.map imgCaps).flatten

/-! ## Byte-level decoding helpers used by database.rs -/

/-- Is `b` a UTF-8 continuation byte (`0x80..=0xBF`)? -/
def isContByte (b : Nat) : Bool := 0x80 ≤ b && b ≤ 0xBF

/-- Admissible range of the first continuation byte after lead `b` of a
three-byte sequence (excludes overlong forms and surrogates, as Rust's
UTF-8 validation does). -/
def cont3Lo (b : Nat) : Nat := if b = 0xE0 then 0xA0 else 0x80
def cont3Hi (b : Nat) : Nat := if b = 0xED then 0x9F else 0xBF

/-- Admissible range of the first continuation byte after lead `b` of a
four-byte sequence (excludes overlong forms and values above U+10FFFF). -/
def cont4Lo (b : Nat) : Nat := if b = 0xF0 then 0x90 else 0x80
def cont4Hi (b : Nat) : Nat := if b = 0xF4 then 0x8F else 0xBF

/-- Strict UTF-8 validation and decoding (`String::from_utf8`): `none` on any
ill-formed sequence, otherwise the decoded scalar values.  Fuel only bounds
the recursion (each step consumes at least one byte). -/
def utf8DecodeGo : Nat → List Nat → Option (List Char)
  | _, [] => some []
  | 0, _ => none
  | fuel + 1, b :: rest =>
    if b < 0x80 then (utf8DecodeGo fuel rest).map (Char.ofNat b :: ·)
    else if b < 0xC2 then none
    else if b < 0xE0 then
      match rest with
      | b1 :: r =>
        if isContByte b1 then
          (utf8DecodeGo fuel r).map (Char.ofNat ((b - 0xC0) * 0x40 + (b1 - 0x80)) :: ·)
        else none
      | [] => none
    else if b < 0xF0 then
      match rest with
      | b1 :: b2 :: r =>
        if cont3Lo b ≤ b1 && b1 ≤ cont3Hi b && isContByte b2 then
          (utf8DecodeGo fuel r).map
            (Char.ofNat ((b - 0xE0) * 0x1000 + (b1 - 0x80) * 0x40 + (b2 - 0x80)) :: ·)
        else none
      | _ => none
    else if b < 0xF5 then
      match rest with
      | b1 :: b2 :: b3 :: r =>
        if cont4Lo b ≤ b1 && b1 ≤ cont4Hi b && isContByte b2 && isContByte b3 then
          (utf8DecodeGo fuel r).map
            (Char.ofNat ((b - 0xF0) * 0x40000 + (b1 - 0x80) * 0x1000 +
              (b2 - 0x80) * 0x40 + (b3 - 0x80)) :: ·)
        else none
      | _ => none
    else none

def utf8Decode (bs : List Nat) : Option (List Char) :=
  utf8DecodeGo bs.length bs

/-- The replacement character U+FFFD. -/
def replChar : Char := Char.ofNat 0xFFFD

/-- Lossy UTF-8 decoding (`String::from_utf8_lossy`): each maximal subpart of
an ill-formed sequence is replaced by one U+FFFD, per the WHATWG algorithm
Rust implements.  Fuel as in `utf8DecodeGo`. -/
def utf8LossyGo : Nat → List Nat → List Char
  | _, [] => []
  | 0, _ => []
  | fuel + 1, b :: rest =>
    if b < 0x80 then Char.ofNat b :: utf8LossyGo fuel rest
    else if b < 0xC2 then replChar :: utf8LossyGo fuel rest
    else if b < 0xE0 then
      match rest with
      | b1 :: r =>
        if isContByte b1 then Char.ofNat ((b - 0xC0) * 0x40 + (b1 - 0x80)) :: utf8LossyGo fuel r
        else replChar :: utf8LossyGo fuel rest
      | [] => [replChar]
    else if b < 0xF0 then
      match rest with
      | b1 :: r =>
        if cont3Lo b ≤ b1 && b1 ≤ cont3Hi b then
          match r with
          | b2 :: r2 =>
            if isContByte b2 then
              Char.ofNat ((b - 0xE0) * 0x1000 + (b1 - 0x80) * 0x40 + (b2 - 0x80)) ::
                utf8LossyGo fuel r2
            else replChar :: utf8LossyGo fuel r
          | [] => [replChar]
        else replChar :: utf8LossyGo fuel rest
      | [] => [replChar]
    else if b < 0xF5 then
      match rest with
      | b1 :: r =>
        if cont4Lo b ≤ b1 && b1 ≤ cont4Hi b then
          match r with
          | b2 :: r2 =>
            if isContByte b2 then
              match r2 with
              | b3 :: r3 =>
                if isContByte b3 then
                  Char.ofNat ((b - 0xF0) * 0x40000 + (b1 - 0x80) * 0x1000 +
                    (b2 - 0x80) * 0x40 + (b3 - 0x80)) :: utf8LossyGo fuel r3
                else replChar :: utf8LossyGo fuel r2
              | [] => [replChar]
            else replChar :: utf8LossyGo fuel r
          | [] => [replChar]
        else replChar :: utf8LossyGo fuel rest
      | [] => [replChar]
    else replChar :: utf8LossyGo fuel rest

def utf8Lossy (bs : List Nat) : List Char :=
  utf8LossyGo bs.length bs

/-- `str::parse::<i64>`: optional sign, one or more ASCII digits, in-range. -/
def parseI64 (s : List Char) : Option Int :=
  let (sign, ds) : Int × List Char :=
    match s with
    | '+' :: t => (1, t)
    | '-' :: t => (-1, t)
    | t => (1, t)
  if ds.length > 0 && ds.all (fun c => c.isDigit) then
    let n : Nat := ds.foldl (fun a c => a * 10 + (c.toNat - 48)) 0
    let v : Int := sign * n
    if -(2 ^ 63) ≤ v && v < 2 ^ 63 then some v else none
  else none

/-- `i64::from_le_bytes` of the first 8 bytes (two's complement). -/
def i64FromLeBytes (bs : List Nat) : Int :=
  let n : Nat := (bs.take 8).foldr (fun b acc => acc * 256 + b % 256) 0
  if n < 2 ^ 63 then (n : Int) else (n : Int) - 2 ^ 64

/-! ## database.rs : extract_name_from_protobuf

The Rust loop index strictly advances; it is modelled as structural recursion
on the remaining byte list.  Every recursive call takes a suffix of the bytes
after the tag byte. -/

/-- `extract_name_from_protobuf` (database.rs).  A byte equal to `0x12`
(field 2, wire type 2) triggers the one-byte-length-prefixed UTF-8 read;
any other byte is skipped by wire-type rules.  On a failed read at `0x12`
the scan resumes directly after the length byte, exactly as the source
does (it never skips the payload in that case). -/
def protobufNameGo : Nat → List Nat → Option (List Char)
  | _, [] => none
  | 0, _ => none
  | fuel + 1, tag :: rest =>
    if rest = [] then none
    else if tag = 0x12 then
      match rest with
      | len :: rest2 =>
        if len ≤ rest2.length then
          match utf8Decode (rest2.take len) with
          | some name => some name
          | none => protobufNameGo fuel rest2
        else protobufNameGo fuel rest2
      | [] => none
    else
      match tag % 8 with
      | 0 => protobufNameGo fuel ((rest.dropWhile (fun b => b &&& 0x80 != 0)).drop 1)
      | 1 => protobufNameGo fuel (rest.drop 8)
      | 2 =>
        match rest with
        | len2 :: r2 => protobufNameGo fuel (r2.drop len2)
        | [] => none
      | 5 => protobufNameGo fuel (rest.drop 4)
      | _ => protobufNameGo fuel (rest.drop 1)

def extract_name_from_protobuf (data : List Nat) : Option (List Char) :=
  protobufNameGo data.length data

/-! ## database.rs : parse_decks (modern and legacy layouts) -/

/-- A SQLite column value as seen through `rusqlite::types::ValueRef`.  The
catch-all constructor stands for the remaining variants (`Null`, `Real`),
which the parsing code treats uniformly through its `_` arms. -/
inductive SqlValue
  | int (i : Int)
  | blob (bs : List Nat)
  | text (bs : List Nat)
  | other
deriving DecidableEq, Repr

/-- The id column handling of `parse_decks_modern`: integer as-is; a blob of
at least 8 bytes as little-endian i64, shorter blobs and other types = 0. -/
def deckIdOfValue : SqlValue → Int
  | .int i => i
  | .blob bs => if bs.length ≥ 8 then i64FromLeBytes bs else 0
  | _ => 0

/-- The name column handling of `parse_decks_modern`: text or blob bytes,
anything else an empty buffer. -/
def deckNameBytesOfValue : SqlValue → List Nat
  | .text bs => bs
  | .blob bs => bs
  | _ => []

/-- Hierarchy depth: `name.matches("::").count()` — non-overlapping leftmost
occurrence count. -/
def countSep : List Char → Nat
  | ':' :: ':' :: rest => countSep rest + 1
  | _ :: rest => countSep rest
  | [] => 0

/-- Lexicographic order on names (`str::cmp` is byte order, which equals
code-point order). -/
def lexLe : List Char → List Char → Bool
  | [], _ => true
  | _ :: _, [] => false
  | a :: as, b :: bs => if a = b then lexLe as bs else decide (a < b)

/-- The sort comparator of both deck parsers:
`a_depth.cmp(&b_depth).then_with(|| a.name.cmp(&b.name))`, read as
"not greater". -/
def deckLe (a b : AnkiDeck) : Bool :=
  if countSep a.name = countSep b.name then lexLe a.name b.name
  else decide (countSep a.name < countSep b.name)

/-- The order relation the deck sort establishes. -/
def DeckLE (a b : AnkiDeck) : Prop := deckLe a b = true

instance : DecidableRel DeckLE := fun a b => by unfold DeckLE; infer_instance

/-- `decks.sort_by(...)`: a stable sort under the comparator.  Rust's
`sort_by` and insertion sort are both stable, so they produce the same
sequence for the same comparator. -/
def sortDecks (decks : List AnkiDeck) : List AnkiDeck :=
  List.insertionSort DeckLE decks

/-- `parse_decks_modern` (database.rs), given the `SELECT id, name FROM decks`
rows: rows whose decoded id is 0 are skipped; the name is strict UTF-8 when
valid, otherwise the protobuf fallback (empty on failure); empty names are
skipped; the result is sorted by depth then name. -/
def parse_decks_modern (rows : List (SqlValue × SqlValue)) : List AnkiDeck :=
  let decks := rows.foldl
    (fun decks row =>
      let id := deckIdOfValue row.1
      if id = 0 then decks
      else
        let nameBytes := deckNameBytesOfValue row.2
        let name :=
          match utf8Decode nameBytes with
          | some s => s
          | none => (extract_name_from_protobuf nameBytes).getD []
        if name.length > 0 then decks ++ [AnkiDeck.from_name id name] else decks)
    []
  sortDecks decks

/-- `parse_decks_legacy` (database.rs), given the entries of the decks JSON
object from the `col` table.  Each entry is the id key string and the
`deck["name"].as_str()` result.  The key is parsed as i64 with fallback 0
— and, unlike the modern path, an id of 0 is NOT skipped; only empty names
are.  The result is sorted by depth then name. -/
def parse_decks_legacy (entries : List (List Char × Option (List Char))) : List AnkiDeck :=
  let decks := entries.foldl
    (fun decks e =>
      let id := (parseI64 e.1).getD 0
      let name := e.2.getD []
      if name.length = 0 then decks
      else decks ++ [AnkiDeck.from_name id name])
    []
  sortDecks decks

/-! ## database.rs : parse_cards -/

/-- A card (`AnkiCard` in models.rs). -/
structure AnkiCard where
  id : Int
  note_id : Int
  deck_id : Int
  fields : List (List Char)
  media_references : List (List Char)
deriving DecidableEq, Repr

/-- Splitting on the unit separator `0x1F` (`fields_str.split('\x1f')`);
Rust `split` on a char always yields at least one piece. -/
def splitUnitSep : List Char → List (List Char)
  | [] => [[]]
  | c :: rest =>
    if c = Char.ofNat 0x1F then [] :: splitUnitSep rest
    else
      match splitUnitSep rest with
      | h :: t => (c :: h) :: t
      | [] => [[c]]

/-- The `n.flds` column handling of `parse_cards`: text or blob decoded
UTF-8-lossily, any other type the empty string. -/
def fieldsStrOfValue : SqlValue → List Char
  | .text bs => utf8Lossy bs
  | .blob bs => utf8Lossy bs
  | _ => []

/-- One row of the cards-joined-with-notes query. -/
structure CardRow where
  id : Int
  nid : Int
  did : Int
  flds : SqlValue
deriving Repr

/-- `cards_by_deck.entry(deck_id).or_default().push(card)`: the map is
modelled as an association list in key-insertion order (a `HashMap`'s own
iteration order is never relied on by the claims). -/
def pushCard : List (Int × List AnkiCard) → Int → AnkiCard → List (Int × List AnkiCard)
  | [], k, c => [(k, [c])]
  | (k', cs) :: t, k, c =>
    if k' = k then (k', cs ++ [c]) :: t else (k', cs) :: pushCard t k c

/-- `parse_cards` (database.rs): per row, split the field blob on `0x1F`,
extract media references with the two reference patterns, and group the
card under its deck id.  Progress callbacks have no effect on the result
and are omitted. -/
def parse_cards (rows : List CardRow) : List (Int × List AnkiCard) :=
  rows.foldl
    (fun acc row =>
      let fields := splitUnitSep (fieldsStrOfValue row.flds)
      let card : AnkiCard :=
        { id := row.id, note_id := row.nid, deck_id := row.did,
          fields := fields,
          media_references := extract_media_references fields }
      pushCard acc row.did card)
    []

/-! ## media.rs : classification, validation, process_media -/

inductive MediaType
  | audio
  | image
  | unknown
deriving DecidableEq, Repr

/-- The known audio extensions. -/
def audioExtensions : List (List Char) :=
  ["mp3".toList, "wav".toList, "m4a".toList, "ogg".toList, "flac".toList,
   "aac".toList, "opus".toList, "wma".toList]

/-- The known image extensions. -/
def imageExtensions : List (List Char) :=
  ["jpg".toList, "jpeg".toList, "png".toList, "gif".toList, "webp".toList,
   "bmp".toList, "svg".toList, "ico".toList, "tiff".toList]

/-- `filename.rsplit('.').next()` — the suffix after the last dot (the whole
name when there is none). -/
def afterLastDot : List Char → List Char
  | [] => []
  | c :: rest =>
    if rest.contains '.' then afterLastDot rest
    else if c = '.' then rest
    else c :: rest

/-- `media_type_from_extension` (media.rs).  `to_lowercase` is modelled
ASCII-wise: the comparison is against fixed ASCII extension strings, for
which Unicode and ASCII lowercasing coincide. -/
def media_type_from_extension (filename : List Char) : MediaType :=
  let ext := (afterLastDot filename).map Char.toLower
  if audioExtensions.contains ext then .audio
  else if imageExtensions.contains ext then .image
  else .unknown

/-- The zstd frame magic `28 B5 2F FD`. -/
def zstdMagic : List Nat := [0x28, 0xB5, 0x2F, 0xFD]

/-- `is_zstd_compressed`: at least 4 bytes and the magic prefix. -/
def is_zstd_compressed (data : List Nat) : Bool :=
  data.length ≥ 4 && data.take 4 = zstdMagic

/-- `is_valid_image` (media.rs): early false under 8 bytes, then the
signature checks in source order. -/
def is_valid_image (data : List Nat) : Bool :=
  if data.length < 8 then false
  else
    ([0xFF, 0xD8] : List Nat).isPrefixOf data
    || ([0x89, 0x50, 0x4E, 0x47, 0x0D, 0x0A, 0x1A, 0x0A] : List Nat).isPrefixOf data
    || ([0x47, 0x49, 0x46, 0x38, 0x37, 0x61] : List Nat).isPrefixOf data
    || ([0x47, 0x49, 0x46, 0x38, 0x39, 0x61] : List Nat).isPrefixOf data
    || (([0x52, 0x49, 0x46, 0x46] : List Nat).isPrefixOf data && data.length ≥ 12
        && (data.drop 8).take 4 = [0x57, 0x45, 0x42, 0x50])
    || (data.length ≥ 2 && data.take 2 = [0x42, 0x4D])
    || (let trimmed := (data.dropWhile (fun b => b = 0x20 || b = 0x09 || b = 0x0A || b = 0x0D)).take 5
        ([0x3C, 0x3F, 0x78, 0x6D, 0x6C] : List Nat).isPrefixOf trimmed
        || ([0x3C, 0x73, 0x76, 0x67] : List Nat).isPrefixOf trimmed)

/-- `is_valid_audio` (media.rs): early false under 4 bytes, then the
signature checks in source order. -/
def is_valid_audio (data : List Nat) : Bool :=
  if data.length < 4 then false
  else
    ([0x49, 0x44, 0x33] : List Nat).isPrefixOf data
    || (data.length ≥ 2 &&
        (data.take 1 = [0xFF] && ((data.drop 1).take 1).any (fun b => b &&& 0xE0 = 0xE0)))
    || ([0x4F, 0x67, 0x67, 0x53] : List Nat).isPrefixOf data
    || ([0x66, 0x4C, 0x61, 0x43] : List Nat).isPrefixOf data
    || (([0x52, 0x49, 0x46, 0x46] : List Nat).isPrefixOf data && data.length ≥ 12
        && (data.drop 8).take 4 = [0x57, 0x41, 0x56, 0x45])
    || (data.length ≥ 8 && (data.drop 4).take 4 = [0x66, 0x74, 0x79, 0x70])

/-- The validation dispatch inside `process_media`. -/
def isValidFor : MediaType → List Nat → Bool
  | .image, d => is_valid_image d
  | .audio, d => is_valid_audio d
  | .unknown, _ => false

/-- Store the asset: the source stores it in BOTH branches — on validation
failure it only logs a warning first ("Still add it - the Swift side may
handle it"). -/
def storeValidatedAsset (st : AnkiMediaStore) (mt : MediaType) (filename : List Char)
    (d : List Nat) : AnkiMediaStore :=
  if isValidFor mt d then st.insert filename d
  else st.insert filename d

/-- `process_media` (media.rs).  `extract` stands for
`archive.extract_media` (`Err` propagates and aborts, `Ok(None)` = entry
absent, skipped); `zdec` stands for the zstd library's `decode_all`
(`none` = decompression failure, the asset is skipped).  Unknown-extension
entries are skipped before extraction.  Progress callbacks have no effect
on the resulting store and are omitted. -/
def processMediaGo (extract : List Char → Except Unit (Option (List Nat)))
    (zdec : List Nat → Option (List Nat)) :
    List (List Char × List Char) → AnkiMediaStore → Except Unit AnkiMediaStore
  | [], st => .ok st
  | (index, filename) :: t, st =>
    let mt := media_type_from_extension filename
    if mt = .unknown then processMediaGo extract zdec t st
    else
      match extract index with
      | .error e => .error e
      | .ok none => processMediaGo extract zdec t st
      | .ok (some data) =>
        if is_zstd_compressed data then
          match zdec data with
          | some decompressed =>
            processMediaGo extract zdec t (storeValidatedAsset st mt filename decompressed)
          | none => processMediaGo extract zdec t st
        else processMediaGo extract zdec t (storeValidatedAsset st mt filename data)

/-- `process_media`, starting from a fresh store. -/
def process_media (mapping : List (List Char × List Char))
    (extract : List Char → Except Unit (Option (List Nat)))
    (zdec : List Nat → Option (List Nat)) : Except Unit AnkiMediaStore :=
  processMediaGo extract zdec mapping AnkiMediaStore.new

/-! ## lib.rs : orphan-deck reconciliation in parse_anki_file -/

/-- `format!("Deck {}", deck_id)`. -/
def placeholderDeckName (deckId : Int) : List Char :=
  "Deck ".toList ++ (toString deckId).toList

/-- The reconciliation loop of `parse_anki_file`: the known-id set is
computed once from the parsed decks, then for every deck id keying the
cards-by-deck map that is not known, a placeholder deck named from the id
is pushed.  `keys` are the map's keys (distinct by construction of a map). -/
def reconcileDecks (decks : List AnkiDeck) (keys : List Int) : List AnkiDeck :=
  let known := decks.map (fun d => d.id)
  keys.foldl
    (fun acc k =>
      if known.contains k then acc
      else acc ++ [AnkiDeck.from_name k (placeholderDeckName k)])
    decks

/-! ## html.rs : clean_html

Each `Regex::replace_all` is modelled by a generic left-to-right rewriter
driven by an anchored matcher for that pattern: at each position the matcher
either yields (match length, replacement) — the scan resumes after the match
— or the character is kept and the scan advances by one.  This is exactly
`replace_all`'s leftmost, non-overlapping semantics. -/

/-- Generic `replace_all`: `step` is the anchored matcher.  Fuel only bounds
the recursion (every step consumes at least one character). -/
def rewriteAllGo (step : List Char → Option (Nat × List Char)) :
    Nat → List Char → List Char
  | _, [] => []
  | 0, s => s
  | fuel + 1, c :: rest =>
    match step (c :: rest) with
    | some (len, repl) => repl ++ rewriteAllGo step fuel (rest.drop (len - 1))
    | none => c :: rewriteAllGo step fuel rest

def rewriteAll (step : List Char → Option (Nat × List Char)) (s : List Char) : List Char :=
  rewriteAllGo step s.length s

/-- Does any position of `s` match? (`Regex::is_match`-like; false means the
corresponding `replace_all` is the identity.) -/
def hasMatch (step : List Char → Option (Nat × List Char)) : List Char → Bool
  | [] => false
  | c :: rest => (step (c :: rest)).isSome || hasMatch step rest

/-- Anchored matcher for a literal pattern with a fixed replacement
(`str::replace`). -/
def litStep (pat repl : List Char) (s : List Char) : Option (Nat × List Char) :=
  if pat.isPrefixOf s then some (pat.length, repl) else none

/-- `text.replace(pat, repl)`. -/
def replaceSub (pat repl : List Char) (s : List Char) : List Char :=
  rewriteAll (litStep pat repl) s

/-- `[🔊 {f}](media:{f})`. -/
def soundRepl (f : List Char) : List Char :=
  "[🔊 ".toList ++ f ++ "](media:".toList ++ f ++ [')']

/-- Sound pass of clean_html: same pattern as the reference extractor, with
the markdown-audio replacement. -/
def soundStep (s : List Char) : Option (Nat × List Char) :=
  (trySoundAt s).map (fun lc => (lc.1, soundRepl lc.2))

/-- Backtracking for the html.rs img pattern
`<img[^>]+src=["']?([^"'\s>]+)["']?[^>]*>`: like `tryImgSearch` but the
trailing `[^>]*>` must also close with a literal `>`. -/
def tryImgTagSearch (t : List Char) : Nat → Option (Nat × List Char)
  | 0 => none
  | k + 1 =>
    if ("src=".toList).isPrefixOf (t.drop (k + 1)) then
      match tryImgQuotedCap (t.drop (k + 1 + 4)) with
      | some (len2, cap) =>
        let u := t.drop (k + 1 + 4 + len2)
        let gap := u.takeWhile (fun c => !(c = '>'))
        if (u.drop gap.length).take 1 = ['>'] then
          some ((k + 1) + 4 + len2 + gap.length + 1, cap)
        else tryImgTagSearch t k
      | none => tryImgTagSearch t k
    else tryImgTagSearch t k

/-- Anchored match of the html.rs img pattern at the head of `s`. -/
def tryImgTagAt (s : List Char) : Option (Nat × List Char) :=
  if ("<img".toList).isPrefixOf s then
    let t := s.drop 4
    let maxRun := (t.takeWhile (fun c => !(c = '>'))).length
    match tryImgTagSearch t maxRun with
    | some (len, cap) => some (4 + len, cap)
    | none => none
  else none

/-- `![{f}](media:{f})`. -/
def imgRepl (f : List Char) : List Char :=
  "![".toList ++ f ++ "](media:".toList ++ f ++ [')']

/-- Image pass of clean_html. -/
def imgStep (s : List Char) : Option (Nat × List Char) :=
  (tryImgTagAt s).map (fun lc => (lc.1, imgRepl lc.2))

/-- `<br\s*/?>` → newline. -/
def brStep (s : List Char) : Option (Nat × List Char) :=
  if ("<br".toList).isPrefixOf s then
    let t := s.drop 3
    let w := (t.takeWhile isWsChar).length
    match t.drop w with
    | '/' :: '>' :: _ => some (3 + w + 2, ['\n'])
    | '>' :: _ => some (3 + w + 1, ['\n'])
    | _ => none
  else none

/-- An open tag `<NAME[^>]*>` for a literal name prefix already checked by
the caller: consumes the non-`>` run and the closing `>`.  `base` is the
length already matched. -/
def openTagRest (base : Nat) (t : List Char) (repl : List Char) : Option (Nat × List Char) :=
  let r := (t.takeWhile (fun c => !(c = '>'))).length
  if (t.drop r).take 1 = ['>'] then some (base + r + 1, repl) else none

/-- `<div[^>]*>` → removed. -/
def divOpenStep (s : List Char) : Option (Nat × List Char) :=
  if ("<div".toList).isPrefixOf s then openTagRest 4 (s.drop 4) [] else none

/-- `</div>` → newline. -/
def divCloseStep (s : List Char) : Option (Nat × List Char) :=
  litStep ("</div>".toList) ['\n'] s

/-- `<p[^>]*>` → removed. -/
def pOpenStep (s : List Char) : Option (Nat × List Char) :=
  if ("<p".toList).isPrefixOf s then openTagRest 2 (s.drop 2) [] else none

/-- `</p>` → newline. -/
def pCloseStep (s : List Char) : Option (Nat × List Char) :=
  litStep ("</p>".toList) ['\n'] s

/-- `</?span[^>]*>` → removed. -/
def spanStep (s : List Char) : Option (Nat × List Char) :=
  if ("</span".toList).isPrefixOf s then openTagRest 6 (s.drop 6) []
  else if ("<span".toList).isPrefixOf s then openTagRest 5 (s.drop 5) []
  else none

/-- The alternation `b|i|u|strong|em|font|a`, in source order; the
alternatives have pairwise distinct first characters, so at most one can
match at a given position. -/
def formatTagNames : List (List Char) :=
  ["b".toList, "i".toList, "u".toList, "strong".toList, "em".toList,
   "font".toList, "a".toList]

/-- `</?(?:b|i|u|strong|em|font|a)[^>]*>` → removed. -/
def formatStep (s : List Char) : Option (Nat × List Char) :=
  let tryNames (base : Nat) (t : List Char) : Option (Nat × List Char) :=
    (formatTagNames.filter (fun n => n.isPrefixOf t)).head?.bind
      (fun n => openTagRest (base + n.length) (t.drop n.length) [])
  if ("</".toList).isPrefixOf s then tryNames 2 (s.drop 2)
  else if ("<".toList).isPrefixOf s then tryNames 1 (s.drop 1)
  else none

/-- `<[^>]+>` → removed. -/
def tagStep (s : List Char) : Option (Nat × List Char) :=
  match s with
  | '<' :: t =>
    let r := (t.takeWhile (fun c => !(c = '>'))).length
    if r > 0 && (t.drop r).take 1 = ['>'] then some (1 + r + 1, []) else none
  | _ => none

/-- The named-entity table of `decode_html_entities`, in source order. -/
def entityTable : List (List Char × List Char) :=
  [("&nbsp;".toList, " ".toList),
   ("&amp;".toList, "&".toList),
   ("&lt;".toList, "<".toList),
   ("&gt;".toList, ">".toList),
   ("&quot;".toList, "\"".toList),
   ("&apos;".toList, [Char.ofNat 39]),
   ("&#39;".toList, [Char.ofNat 39]),
   ("&mdash;".toList, "—".toList),
   ("&ndash;".toList, "–".toList),
   ("&hellip;".toList, "…".toList),
   ("&copy;".toList, "©".toList),
   ("&reg;".toList, "®".toList),
   ("&trade;".toList, "™".toList),
   ("&laquo;".toList, "«".toList),
   ("&raquo;".toList, "»".toList),
   ("&bull;".toList, "•".toList),
   ("&middot;".toList, "·".toList),
   ("&times;".toList, "×".toList),
   ("&divide;".toList, "÷".toList),
   ("&plusmn;".toList, "±".toList),
   ("&deg;".toList, "°".toList),
   ("&prime;".toList, "′".toList),
   ("&Prime;".toList, "″".toList)]

/-- `char::from_u32(code)` spliced into a string:
a valid scalar value becomes that character, otherwise (`unwrap_or_default`)
the empty string. -/
def charFromU32Repl (code : Nat) : List Char :=
  if code < 0xD800 || (0xE000 ≤ code && code ≤ 0x10FFFF) then [Char.ofNat code] else []

/-- `&#(\d+);` → decoded code point.  The digit class is modelled as ASCII
digits (the subsequent `parse::<u32>` accepts only those; a non-ASCII
decimal digit would parse to the fallback 0).  A parse overflow falls back
to 0 (`unwrap_or(0)`). -/
def decStep (s : List Char) : Option (Nat × List Char) :=
  if ("&#".toList).isPrefixOf s then
    let t := s.drop 2
    let ds := t.takeWhile Char.isDigit
    if ds.length > 0 && (t.drop ds.length).take 1 = [';'] then
      let n : Nat := ds.foldl (fun a c => a * 10 + (c.toNat - 48)) 0
      let code := if n < 2 ^ 32 then n else 0
      some (2 + ds.length + 1, charFromU32Repl code)
    else none
  else none

def isHexDigitChar (c : Char) : Bool :=
  c.isDigit || ('a' ≤ c && c ≤ 'f') || ('A' ≤ c && c ≤ 'F')

def hexDigitVal (c : Char) : Nat :=
  if c.isDigit then c.toNat - 48
  else if 'a' ≤ c && c ≤ 'f' then c.toNat - 87
  else c.toNat - 55

/-- `&#[xX]([0-9a-fA-F]+);` → decoded code point (`from_str_radix 16`,
fallback 0 on overflow). -/
def hexStep (s : List Char) : Option (Nat × List Char) :=
  if ("&#x".toList).isPrefixOf s || ("&#X".toList).isPrefixOf s then
    let t := s.drop 3
    let ds := t.takeWhile isHexDigitChar
    if ds.length > 0 && (t.drop ds.length).take 1 = [';'] then
      let n : Nat := ds.foldl (fun a c => a * 16 + hexDigitVal c) 0
      let code := if n < 2 ^ 32 then n else 0
      some (3 + ds.length + 1, charFromU32Repl code)
    else none
  else none

/-- `decode_html_entities` (html.rs): the named-entity replaces in order,
then decimal numeric references, then hexadecimal ones. -/
def decode_html_entities (s : List Char) : List Char :=
  let t := entityTable.foldl (fun acc p => replaceSub p.1 p.2 acc) s
  rewriteAll hexStep (rewriteAll decStep t)

/-- `text.trim()` (whitespace modelled as in `isWsChar`). -/
def trimBoth (s : List Char) : List Char :=
  ((s.dropWhile isWsChar).reverse.dropWhile isWsChar).reverse

/-- `\n{3,}` → exactly two newlines (greedy: a maximal run of at least three
newlines is matched whole). -/
def collapseStep (s : List Char) : Option (Nat × List Char) :=
  let run := (s.takeWhile (fun c => c = '\n')).length
  if run ≥ 3 then some (run, ['\n', '\n']) else none

/-- `clean_html` (html.rs): the ten tag passes, entity decoding, trim, and
newline collapsing, in source order. -/
def clean_html (s : List Char) : List Char :=
  let t1 := rewriteAll soundStep s
  let t2 := rewriteAll imgStep t1
  let t3 := rewriteAll brStep t2
  let t4 := rewriteAll divOpenStep t3
  let t5 := rewriteAll divCloseStep t4
  let t6 := rewriteAll pOpenStep t5
  let t7 := rewriteAll pCloseStep t6
  let t8 := rewriteAll spanStep t7
  let t9 := rewriteAll formatStep t8
  let t10 := rewriteAll tagStep t9
  let t11 := decode_html_entities t10
  let t12 := trimBoth t11
  rewriteAll collapseStep t12

/-- A string with no remaining markup: no pass of `clean_html` finds
anything to rewrite.  (The formal reading of the spec's "output that
contains no more markup".) -/
def noMarkup (s : List Char) : Bool :=
  !(hasMatch soundStep s) && !(hasMatch imgStep s) && !(hasMatch brStep s)
  && !(hasMatch divOpenStep s) && !(hasMatch divCloseStep s)
  && !(hasMatch pOpenStep s) && !(hasMatch pCloseStep s)
  && !(hasMatch spanStep s) && !(hasMatch formatStep s) && !(hasMatch tagStep s)
  && entityTable.all (fun p => !(hasMatch (litStep p.1 p.2) s))
  && !(hasMatch decStep s) && !(hasMatch hexStep s)
  && trimBoth s = s
  && !(hasMatch collapseStep s)

/-! ## Specification-side predicates used to state the claims -/

/-- An occurrence of the separator `"::"` at position `j` of `s`. -/
def sepAt (s : List Char) (j : Nat) : Prop :=
  (s.drop j).take 2 = [':', ':']

instance (s : List Char) (j : Nat) : Decidable (sepAt s j) := by
  unfold sepAt; infer_instance

/-- Does `s` end with the separator `"::"`? -/
def endsWithSep (s : List Char) : Bool :=
  decide (s.reverse.take 2 = [':', ':'])

/-- `c` names a strict descendant of `p` in the deck hierarchy. -/
def isAncestorName (p c : List Char) : Prop :=
  ∃ r, c = p ++ ':' :: ':' :: r

/-!
# Theorems
-/

/-! ### Helper lemmas -/

theorem countSep_cons_ne (c : Char) (rest : List Char)
    (h : ∀ tail, c = ':' → rest = ':' :: tail → False) :
    countSep (c :: rest) = countSep rest := by
  rw [countSep.eq_def]
  split <;> simp_all

theorem hasSep_cons_ne (c : Char) (rest : List Char)
    (h : ∀ tail, c = ':' → rest = ':' :: tail → False) :
    hasSep (c :: rest) = hasSep rest := by
  rw [hasSep.eq_def]
  split <;> simp_all

theorem countSep_append_le (a b : List Char) : countSep a ≤ countSep (a ++ b) := by
  induction a using countSep.induct with
  | case1 tail ih =>
    simpa [countSep] using ih
  | case2 c rest h ih =>
    rw [countSep_cons_ne c rest h]
    cases rest with
    | nil => exact Nat.zero_le _
    | cons r0 rt =>
      rw [List.cons_append, List.cons_append,
        countSep_cons_ne c (r0 :: (rt ++ b)) (by
          intro tail hc hr
          exact h rt hc (by injection hr with h1 h2; rw [h1]))]
      rw [List.cons_append] at ih
      exact ih
  | case3 => simp [countSep]

theorem countSep_append_sep (a r : List Char) :
    countSep a + 1 ≤ countSep (a ++ ':' :: ':' :: r) := by
  induction a using countSep.induct with
  | case1 tail ih =>
    simpa [countSep, Nat.succ_le_succ_iff] using ih
  | case2 c rest h ih =>
    rw [countSep_cons_ne c rest h]
    cases rest with
    | nil =>
      by_cases hc : c = ':'
      · subst hc
        simp [countSep]
      · rw [List.cons_append, List.nil_append,
          countSep_cons_ne c (':' :: ':' :: r) (by intro tail h1 _; exact hc h1)]
        simp [countSep]
    | cons r0 rt =>
      rw [List.cons_append, List.cons_append,
        countSep_cons_ne c (r0 :: (rt ++ ':' :: ':' :: r)) (by
          intro tail hc hr
          exact h rt hc (by injection hr with h1 h2; rw [h1]))]
      rw [List.cons_append] at ih
      exact ih
  | case3 => simp [countSep]

theorem hasSep_two_le (s : List Char) (h : hasSep s = true) : 2 ≤ s.length := by
  induction s using hasSep.induct with
  | case1 tail => simp
  | case2 c rest hne ih =>
    rw [hasSep_cons_ne c rest hne] at h
    have := ih h
    simp only [List.length_cons]
    omega
  | case3 => simp [hasSep] at h

theorem hasSep_iff_sepAt (s : List Char) : hasSep s = true ↔ ∃ j, sepAt s j := by
  induction s using hasSep.induct with
  | case1 tail =>
    simp only [hasSep, true_iff]
    exact ⟨0, by simp [sepAt]⟩
  | case2 c rest hne ih =>
    rw [hasSep_cons_ne c rest hne, ih]
    constructor
    · rintro ⟨j, hj⟩
      exact ⟨j + 1, by simpa [sepAt] using hj⟩
    · rintro ⟨j, hj⟩
      cases j with
      | zero =>
        exfalso
        cases rest with
        | nil => simp [sepAt] at hj
        | cons r0 rt =>
          simp only [sepAt, List.drop_zero] at hj
          have h1 : c = ':' ∧ r0 = ':' := by
            have := List.cons.inj ((by simpa using hj) : c :: [r0] = ':' :: [':'])
            exact ⟨this.1, by simpa using this.2⟩
          exact hne rt h1.1 (by rw [h1.2])
      | succ j1 =>
        exact ⟨j1, by simpa [sepAt] using hj⟩
  | case3 =>
    simp [hasSep, sepAt]

theorem endsWithSep_cons (c : Char) (rest : List Char) (h : 2 ≤ rest.length) :
    endsWithSep (c :: rest) = endsWithSep rest := by
  simp only [endsWithSep, List.reverse_cons]
  rw [List.take_append_of_le_length (by simpa using h)]

theorem afterLastSep_suffix (s : List Char) : afterLastSep s <:+ s := by
  induction s using afterLastSep.induct with
  | case1 => simp [afterLastSep]
  | case2 c rest h ih =>
    rw [afterLastSep, if_pos h]
    exact ih.trans (List.suffix_cons c rest)
  | case3 c rest h hc =>
    rw [afterLastSep, if_neg h, if_pos hc]
    exact (List.drop_suffix 1 rest).trans (List.suffix_cons c rest)
  | case4 c rest h hc =>
    rw [afterLastSep, if_neg h, if_neg hc]

theorem afterLastSep_ne_nil :
    ∀ (s : List Char), s ≠ [] → endsWithSep s = false → afterLastSep s ≠ [] := by
  intro s
  induction s using afterLastSep.induct with
  | case1 => exact fun hs _ => absurd rfl hs
  | case2 c rest h ih =>
    intro _ he
    rw [afterLastSep, if_pos h]
    have h2 := hasSep_two_le rest h
    apply ih
    · intro hn
      rw [hn] at h
      simp [hasSep] at h
    · rw [endsWithSep_cons c rest h2] at he
      exact he
  | case3 c rest h hc =>
    intro _ he
    rw [afterLastSep, if_neg h, if_pos hc]
    obtain ⟨hc1, hc2⟩ := hc
    cases rest with
    | nil => simp at hc2
    | cons r0 rt =>
      intro hdrop
      have hrt : rt = [] := by simpa using hdrop
      have hr0 : r0 = ':' := by simpa using hc2
      subst hrt; subst hr0; subst hc1
      exact absurd he (by decide)
  | case4 c rest h hc =>
    intro _ _
    rw [afterLastSep, if_neg h, if_neg hc]
    simp

/-! ### Claim C1 -/

/-- C1: evidence of the code bug.  Registering a filename-only placeholder
with `add_filename` and then upgrading it with `insert` duplicates the name
in `filenames()` (because `insert` checks only the data map, not the ordered
list), so the name occurs twice and `count()` is 2 although only one
distinct filename was ever registered — `insert` DOES disturb the
enumeration, contrary to the claim. -/
theorem C1_insert_after_add_filename_duplicates :
    (runMediaOps [MediaOp.addFilename ("a".toList),
        MediaOp.insert ("a".toList) [1]]).filenames = ["a".toList, "a".toList]
    ∧ (runMediaOps [MediaOp.addFilename ("a".toList),
        MediaOp.insert ("a".toList) [1]]).count = 2 := by
  decide

/-! ### Claim C2 -/

/-- C2 counterexample: with the field sequence `["<img src=a>", "[sound:b]"]`
the code yields `["a", "b"]` (per-field scans: the first field's image
capture comes first), while the claimed global two-pass order (all sound
matches across the field set first) would yield `["b", "a"]`. -/
theorem C2_counterexample :
    extract_media_references ["<img src=a>".toList, "[sound:b]".toList]
      = ["a".toList, "b".toList]
    ∧ extract_media_references_globalTwoPass ["<img src=a>".toList, "[sound:b]".toList]
      = ["b".toList, "a".toList]
    ∧ extract_media_references ["<img src=a>".toList, "[sound:b]".toList]
      ≠ extract_media_references_globalTwoPass ["<img src=a>".toList, "[sound:b]".toList] := by
  decide

theorem extract_refs_foldl_eq (fields : List (List Char)) (acc : List (List Char)) :
    fields.foldl (fun refs f => refs ++ soundCaps f ++ imgCaps f) acc
      = acc ++ (fields.map (fun f => soundCaps f ++ imgCaps f)).flatten := by
  induction fields generalizing acc with
  | nil => simp
  | cons f t ih =>
    rw [List.foldl_cons, ih]
    simp [List.append_assoc]

/-- C2 amended: `asset_references` are ordered by two sequential scans per
field — for each field in field order, first every sound match of that
field, then every image match of that field — and not globally, nor by a
single left-to-right scan of a field (witnessed by the second conjunct,
where the sound reference is extracted first although the image reference
precedes it in the text). -/
theorem C2_per_field_two_pass (fields : List (List Char)) :
    extract_media_references fields
      = (fields.map (fun f => soundCaps f ++ imgCaps f)).flatten
    ∧ extract_media_references ["<img src=a.png>x[sound:b.mp3]".toList]
      = ["b.mp3".toList, "a.png".toList] := by
  constructor
  · rw [extract_media_references, extract_refs_foldl_eq]
    simp
  · decide

/-! ### Claim C3 -/

/-- C3 counterexample: the full name `"A::"` is non-empty, yet the
constructed leaf name is empty — so the leaf name is not always a NON-EMPTY
suffix of a non-empty full name. -/
theorem C3_counterexample :
    ("A::".toList).length > 0
    ∧ (AnkiDeck.from_name 1 ("A::".toList)).short_name = [] := by
  decide

/-- C3 amended: the leaf name is always a suffix of the full name, and it is
non-empty whenever the full name is non-empty and does not end with the
separator `"::"`; `is_root` holds exactly when the full name contains no
`"::"` occurrence; and the concrete hierarchy examples of the claim hold:
for `"A::B::C"` the leaf is `"C"`, the parent path `"A::B"`, not a root;
for `"Root"` the leaf is `"Root"`, no parent path, a root. -/
theorem C3_leaf_suffix_hierarchy (i : Int) (name : List Char) :
    (AnkiDeck.from_name i name).short_name <:+ name
    ∧ (name ≠ [] → endsWithSep name = false →
        (AnkiDeck.from_name i name).short_name ≠ [])
    ∧ ((AnkiDeck.from_name i name).is_root = true ↔ ¬ ∃ j, sepAt name j)
    ∧ (AnkiDeck.from_name 3 ("A::B::C".toList)).short_name = "C".toList
    ∧ (AnkiDeck.from_name 3 ("A::B::C".toList)).parent_path = some ("A::B".toList)
    ∧ (AnkiDeck.from_name 3 ("A::B::C".toList)).is_root = false
    ∧ (AnkiDeck.from_name 4 ("Root".toList)).short_name = "Root".toList
    ∧ (AnkiDeck.from_name 4 ("Root".toList)).parent_path = none
    ∧ (AnkiDeck.from_name 4 ("Root".toList)).is_root = true := by
  refine ⟨afterLastSep_suffix name, afterLastSep_ne_nil name, ?_, ?_, ?_, ?_, ?_, ?_, ?_⟩
  · rw [← hasSep_iff_sepAt name]
    simp [AnkiDeck.is_root, AnkiDeck.from_name]
  all_goals decide

/-- C3 witness: the amended non-emptiness clause applied at the concrete
name `"A::B"`. -/
theorem C3_leaf_suffix_hierarchy_witness :
    ("A::B".toList ≠ [] ∧ endsWithSep ("A::B".toList) = false)
    ∧ (AnkiDeck.from_name 1 ("A::B".toList)).short_name ≠ [] :=
  ⟨⟨by decide, by decide⟩,
    (C3_leaf_suffix_hierarchy 1 ("A::B".toList)).2.1 (by decide) (by decide)⟩

/-! ### Claim C4 -/

/-- C4 counterexample: under the legacy layout a JSON key `"0"` is NOT
dropped — the output contains a category whose id is 0. -/
theorem C4_counterexample :
    parse_decks_legacy [("0".toList, some ("X".toList))]
      = [AnkiDeck.from_name 0 ("X".toList)]
    ∧ (AnkiDeck.from_name 0 ("X".toList)).id = 0 := by
  decide

theorem parse_decks_modern_fold_no_zero :
    ∀ (rows : List (SqlValue × SqlValue)) (acc : List AnkiDeck),
      (∀ d ∈ acc, d.id ≠ 0) →
      ∀ d ∈ rows.foldl
        (fun decks row =>
          let id := deckIdOfValue row.1
          if id = 0 then decks
          else
            let nameBytes := deckNameBytesOfValue row.2
            let name :=
              match utf8Decode nameBytes with
              | some s => s
              | none => (extract_name_from_protobuf nameBytes).getD []
            if name.length > 0 then decks ++ [AnkiDeck.from_name id name] else decks)
        acc,
      d.id ≠ 0 := by
  intro rows
  induction rows with
  | nil => intro acc hacc d hd; exact hacc d hd
  | cons row t ih =>
    intro acc hacc d hd
    simp only [List.foldl_cons] at hd
    refine ih _ ?_ d hd
    intro d' hd'
    by_cases hz : deckIdOfValue row.1 = 0
    · simp only [hz, if_pos rfl] at hd'
      exact hacc d' hd'
    · simp only [if_neg hz] at hd'
      split at hd'
      · rcases List.mem_append.mp hd' with hmem | hmem
        · exact hacc d' hmem
        · rcases List.mem_singleton.mp hmem with rfl
          exact hz
      · exact hacc d' hd'

/-- C4 amended: the modern layout indeed never returns a category with id 0
(rows whose decoded id is 0 are dropped), but the legacy layout does not
drop them (see the counterexample): the zero-id guarantee holds for the
modern path only. -/
theorem C4_modern_no_zero_id (rows : List (SqlValue × SqlValue)) (d : AnkiDeck)
    (hd : d ∈ parse_decks_modern rows) : d.id ≠ 0 := by
  have hmem : d ∈ rows.foldl _ [] :=
    (List.Perm.mem_iff (List.perm_insertionSort DeckLE _)).mp hd
  exact parse_decks_modern_fold_no_zero rows [] (by simp) d hmem

/-- C4 witness: the modern-path guarantee applied at a concrete row set. -/
theorem C4_modern_no_zero_id_witness :
    (AnkiDeck.from_name 5 ("A".toList) ∈ parse_decks_modern [(SqlValue.int 5, SqlValue.text [65])])
    ∧ (AnkiDeck.from_name 5 ("A".toList)).id ≠ 0 :=
  ⟨by decide, C4_modern_no_zero_id [(SqlValue.int 5, SqlValue.text [65])] _ (by decide)⟩

/-! ### Claim C5 -/

theorem lexLe_total : ∀ (a b : List Char), lexLe a b = true ∨ lexLe b a = true := by
  intro a b
  induction a, b using lexLe.induct with
  | case1 x => left; rw [lexLe]
  | case2 c t =>
    right; rw [lexLe]
  | case3 as b bs ih =>
    rcases ih with h | h
    · left; rw [lexLe, if_pos rfl]; exact h
    · right; rw [lexLe, if_pos rfl]; exact h
  | case4 a as b bs hne =>
    rcases lt_trichotomy a b with h | h | h
    · left; rw [lexLe, if_neg hne]; exact decide_eq_true h
    · exact absurd h hne
    · right; rw [lexLe, if_neg (fun hh => hne hh.symm)]; exact decide_eq_true h

theorem lexLe_trans :
    ∀ (a b c : List Char), lexLe a b = true → lexLe b c = true → lexLe a c = true
  | [], _, _, _, _ => by rw [lexLe]
  | _ :: _, [], _, h1, _ => by rw [lexLe] at h1; exact absurd h1 (by simp)
  | _ :: _, _ :: _, [], _, h2 => by rw [lexLe] at h2; exact absurd h2 (by simp)
  | a :: as, b :: bs, c :: cs, h1, h2 => by
    by_cases hab : a = b <;> by_cases hbc : b = c
    · subst hab; subst hbc
      rw [lexLe, if_pos rfl] at h1 h2 ⊢
      exact lexLe_trans as bs cs h1 h2
    · subst hab
      rw [lexLe, if_pos rfl] at h1
      rw [lexLe, if_neg hbc] at h2 ⊢
      exact h2
    · subst hbc
      rw [lexLe, if_neg hab] at h1 ⊢
      exact h1
    · rw [lexLe, if_neg hab] at h1
      rw [lexLe, if_neg hbc] at h2
      have h1' := of_decide_eq_true h1
      have h2' := of_decide_eq_true h2
      have hac : a < c := lt_trans h1' h2'
      rw [lexLe, if_neg (fun hh : a = c => absurd (hh ▸ hac) (lt_irrefl c))]
      exact decide_eq_true hac

instance : IsTotal AnkiDeck DeckLE := by
  constructor
  intro a b
  unfold DeckLE deckLe
  by_cases h : countSep a.name = countSep b.name
  · rw [if_pos h, if_pos h.symm]
    exact lexLe_total a.name b.name
  · rw [if_neg h, if_neg (fun hh => h hh.symm)]
    rcases Nat.lt_or_ge (countSep a.name) (countSep b.name) with hlt | hge
    · left; exact decide_eq_true hlt
    · right; exact decide_eq_true (by omega)

instance : IsTrans AnkiDeck DeckLE := by
  constructor
  intro a b c h1 h2
  unfold DeckLE deckLe at h1 h2 ⊢
  by_cases hab : countSep a.name = countSep b.name <;>
    by_cases hbc : countSep b.name = countSep c.name
  · rw [if_pos hab] at h1
    rw [if_pos hbc] at h2
    rw [if_pos (hab.trans hbc)]
    exact lexLe_trans _ _ _ h1 h2
  · rw [if_neg hbc] at h2
    have := of_decide_eq_true h2
    rw [if_neg (fun hh => hbc (by omega))]
    exact decide_eq_true (by omega)
  · rw [if_neg hab] at h1
    have := of_decide_eq_true h1
    rw [if_neg (fun hh => hab (by omega))]
    exact decide_eq_true (by omega)
  · rw [if_neg hab] at h1
    rw [if_neg hbc] at h2
    have ha := of_decide_eq_true h1
    have hb := of_decide_eq_true h2
    rw [if_neg (by omega)]
    exact decide_eq_true (by omega)

theorem sortDecks_sorted (l : List AnkiDeck) : List.Sorted DeckLE (sortDecks l) :=
  List.sorted_insertionSort DeckLE l

theorem ancestor_depth_lt (a b : AnkiDeck) (h : isAncestorName a.name b.name) :
    countSep a.name < countSep b.name := by
  obtain ⟨r, hr⟩ := h
  rw [hr]
  have := countSep_append_sep a.name r
  omega

theorem deckLe_false_of_depth_lt (a b : AnkiDeck)
    (h : countSep a.name < countSep b.name) : deckLe b a = false := by
  unfold deckLe
  rw [if_neg (by omega)]
  exact decide_eq_false (by omega)

theorem sorted_ancestor_earlier (l : List AnkiDeck) (hs : List.Sorted DeckLE l)
    (i j : Nat) (hi : i < l.length) (hj : j < l.length)
    (h : isAncestorName (l.get ⟨i, hi⟩).name (l.get ⟨j, hj⟩).name) : i < j := by
  have hdepth := ancestor_depth_lt _ _ h
  by_contra hij
  push_neg at hij
  rcases Nat.lt_or_ge j i with hji | hge
  · have hrel : DeckLE (l.get ⟨j, hj⟩) (l.get ⟨i, hi⟩) :=
      hs.rel_get_of_lt (a := ⟨j, hj⟩) (b := ⟨i, hi⟩) hji
    have hfalse := deckLe_false_of_depth_lt _ _ hdepth
    unfold DeckLE at hrel
    rw [hfalse] at hrel
    exact Bool.false_ne_true hrel
  · have : i = j := by omega
    subst this
    obtain ⟨r, hr⟩ := h
    have hlen : (l.get ⟨i, hi⟩).name.length =
        (l.get ⟨i, hi⟩).name.length + 2 + r.length := by
      conv_lhs => rw [hr]
      simp
      omega
    omega

/-- C5: under either layout the categories operation yields a sequence
sorted by the comparator "ascending depth (count of `::` occurrences),
ties broken lexicographically by full name" (`DeckLE`), and consequently
whenever one output category's full name extends another's by `::`-segments
(an ancestor), the ancestor occupies a strictly earlier index. -/
theorem C5_sorted_parents_first (rows : List (SqlValue × SqlValue))
    (entries : List (List Char × Option (List Char))) :
    List.Sorted DeckLE (parse_decks_modern rows)
    ∧ List.Sorted DeckLE (parse_decks_legacy entries)
    ∧ (∀ i j (hi : i < (parse_decks_modern rows).length)
        (hj : j < (parse_decks_modern rows).length),
        isAncestorName ((parse_decks_modern rows).get ⟨i, hi⟩).name
          ((parse_decks_modern rows).get ⟨j, hj⟩).name → i < j)
    ∧ (∀ i j (hi : i < (parse_decks_legacy entries).length)
        (hj : j < (parse_decks_legacy entries).length),
        isAncestorName ((parse_decks_legacy entries).get ⟨i, hi⟩).name
          ((parse_decks_legacy entries).get ⟨j, hj⟩).name → i < j) := by
  refine ⟨sortDecks_sorted _, sortDecks_sorted _, ?_, ?_⟩
  · intro i j hi hj h
    exact sorted_ancestor_earlier _ (sortDecks_sorted _) i j hi hj h
  · intro i j hi hj h
    exact sorted_ancestor_earlier _ (sortDecks_sorted _) i j hi hj h

/-- C5 witness: on the legacy entries `{"1": "A::B", "2": "A"}` the output is
`[A, A::B]` and the ancestor-precedes clause applied at indices 0 and 1
yields `0 < 1`. -/
theorem C5_sorted_parents_first_witness :
    (0 : Nat) < (parse_decks_legacy
      [("1".toList, some ("A::B".toList)), ("2".toList, some ("A".toList))]).length
    ∧ (0 : Nat) < 1 := by
  refine ⟨by decide, ?_⟩
  exact (C5_sorted_parents_first []
    [("1".toList, some ("A::B".toList)), ("2".toList, some ("A".toList))]).2.2.2
    0 1 (by decide) (by decide) ⟨"B".toList, by decide⟩

/-! ### Claim C7 -/

theorem reconcile_foldl_eq (known : List Int) (keys : List Int) (acc : List AnkiDeck) :
    keys.foldl
      (fun acc k =>
        if known.contains k then acc
        else acc ++ [AnkiDeck.from_name k (placeholderDeckName k)])
      acc
    = acc ++ (keys.filter (fun k => !(known.contains k))).map
        (fun k => AnkiDeck.from_name k (placeholderDeckName k)) := by
  induction keys generalizing acc with
  | nil => simp
  | cons k t ih =>
    rw [List.foldl_cons]
    by_cases h : known.contains k
    · have hm : k ∈ known := List.elem_iff.mp h
      rw [if_pos h, ih]
      simp [List.filter_cons, hm]
    · have hm : k ∉ known := fun hmem => h (List.elem_iff.mpr hmem)
      rw [if_neg h, ih]
      simp [List.filter_cons, hm]

theorem reconcileDecks_eq (decks : List AnkiDeck) (keys : List Int) :
    reconcileDecks decks keys
    = decks ++ (keys.filter (fun k => !((decks.map (fun d => d.id)).contains k))).map
        (fun k => AnkiDeck.from_name k (placeholderDeckName k)) := by
  unfold reconcileDecks
  exact reconcile_foldl_eq _ keys decks

theorem known_contains_iff (decks : List AnkiDeck) (k : Int) :
    (decks.map (fun d => d.id)).contains k = true ↔ ∃ d ∈ decks, d.id = k := by
  rw [List.contains, List.elem_iff, List.mem_map]

/-- C7: after reconciliation, every deck id that keys the cards-by-deck map
resolves to some category in the final sequence; for a key with no matching
parsed category exactly one category with that id exists in the output
(distinct map keys assumed, as `HashMap` keys are); parsed ids gain no
extra categories; and every appended category is exactly the placeholder
named from an orphan key. -/
theorem C7_orphan_reconciliation (decks : List AnkiDeck) (keys : List Int) :
    (∀ k ∈ keys, ∃ d ∈ reconcileDecks decks keys, d.id = k)
    ∧ (keys.Nodup → ∀ k ∈ keys, (∀ d ∈ decks, d.id ≠ k) →
        (reconcileDecks decks keys).countP (fun d => d.id == k) = 1)
    ∧ (∀ k : Int, (∃ d ∈ decks, d.id = k) →
        (reconcileDecks decks keys).countP (fun d => d.id == k)
          = decks.countP (fun d => d.id == k))
    ∧ (∀ d ∈ reconcileDecks decks keys, d ∉ decks →
        ∃ k ∈ keys, d = AnkiDeck.from_name k (placeholderDeckName k)
          ∧ ∀ d' ∈ decks, d'.id ≠ k) := by
  rw [reconcileDecks_eq]
  refine ⟨?_, ?_, ?_, ?_⟩
  · intro k hk
    by_cases h : ∃ d ∈ decks, d.id = k
    · obtain ⟨d, hd, hid⟩ := h
      exact ⟨d, List.mem_append_left _ hd, hid⟩
    · refine ⟨AnkiDeck.from_name k (placeholderDeckName k), ?_, rfl⟩
      apply List.mem_append_right
      apply List.mem_map_of_mem
      rw [List.mem_filter]
      refine ⟨hk, ?_⟩
      simp only [Bool.not_eq_true']
      exact (Bool.not_eq_true _).mp (fun hc => h ((known_contains_iff decks k).mp hc))
  · intro hnd k hk hnone
    rw [List.countP_append, List.countP_map]
    have h0 : decks.countP (fun d => d.id == k) = 0 := by
      rw [List.countP_eq_zero]
      intro d hd
      simpa using hnone d hd
    rw [h0]
    have hcomp : ((fun d => d.id == k) ∘ fun j => AnkiDeck.from_name j (placeholderDeckName j))
        = fun j => j == k := by
      funext j
      simp [AnkiDeck.from_name]
    rw [hcomp]
    have hfn : (List.countP (fun j => j == k)
        (keys.filter (fun k => !((decks.map (fun d => d.id)).contains k)))) =
        List.count k (keys.filter (fun k => !((decks.map (fun d => d.id)).contains k))) := rfl
    rw [hfn, List.count_eq_one_of_mem (hnd.filter _)]
    rw [List.mem_filter]
    refine ⟨hk, ?_⟩
    simp only [Bool.not_eq_true']
    refine (Bool.not_eq_true _).mp (fun hc => ?_)
    obtain ⟨d, hd, hid⟩ := (known_contains_iff decks k).mp hc
    exact hnone d hd hid
  · intro k hex
    rw [List.countP_append, List.countP_map]
    have hcomp : ((fun d => d.id == k) ∘ fun j => AnkiDeck.from_name j (placeholderDeckName j))
        = fun j => j == k := by
      funext j
      simp [AnkiDeck.from_name]
    rw [hcomp]
    have h0 : List.countP (fun j => j == k)
        (keys.filter (fun k => !((decks.map (fun d => d.id)).contains k))) = 0 := by
      rw [List.countP_eq_zero]
      intro j hj
      rw [List.mem_filter] at hj
      have hnc := hj.2
      simp only [Bool.not_eq_true'] at hnc
      intro hjk
      have hjk' : j = k := by simpa using hjk
      subst hjk'
      rw [(known_contains_iff decks j).mpr hex] at hnc
      exact Bool.noConfusion hnc
    omega
  · intro d hd hnd
    rcases List.mem_append.mp hd with h | h
    · exact absurd h hnd
    · obtain ⟨k, hk, rfl⟩ := List.mem_map.mp h
      rw [List.mem_filter] at hk
      refine ⟨k, hk.1, rfl, ?_⟩
      intro d' hd' hid
      have hnc := hk.2
      simp only [Bool.not_eq_true'] at hnc
      rw [(known_contains_iff decks k).mpr ⟨d', hd', hid⟩] at hnc
      exact Bool.noConfusion hnc

/-- C7 witness: one parsed deck with id 1, map keys `[1, 5]` — key 5 is
synthesized exactly once, key 1 gains no placeholder. -/
theorem C7_orphan_reconciliation_witness :
    ([1, 5] : List Int).Nodup
    ∧ (5 : Int) ∈ ([1, 5] : List Int)
    ∧ (reconcileDecks [AnkiDeck.from_name 1 ("A".toList)] [1, 5]).countP
        (fun d => d.id == (5 : Int)) = 1 := by
  refine ⟨by decide, by decide, ?_⟩
  exact (C7_orphan_reconciliation [AnkiDeck.from_name 1 ("A".toList)] [1, 5]).2.1
    (by decide) 5 (by decide) (by decide)

/-! ### Claim C10 -/

theorem splitUnitSep_ne_nil (s : List Char) : splitUnitSep s ≠ [] := by
  cases s with
  | nil => simp [splitUnitSep]
  | cons c rest =>
    rw [splitUnitSep]
    split
    · simp
    · split <;> simp

theorem pushCard_mem (acc : List (Int × List AnkiCard)) (k : Int) (c : AnkiCard) :
    ∀ dk cards card, (dk, cards) ∈ pushCard acc k c → card ∈ cards →
      (∃ cards', (dk, cards') ∈ acc ∧ card ∈ cards') ∨ card = c := by
  induction acc with
  | nil =>
    intro dk cards card hmem hcard
    rw [pushCard] at hmem
    rcases List.mem_singleton.mp hmem with heq
    injection heq with h1 h2
    subst h2
    right
    simpa using hcard
  | cons p t ih =>
    intro dk cards card hmem hcard
    obtain ⟨k', cs⟩ := p
    rw [pushCard] at hmem
    split at hmem
    · rcases List.mem_cons.mp hmem with heq | htail
      · injection heq with h1 h2
        subst h1; subst h2
        rcases List.mem_append.mp hcard with hin | hone
        · exact Or.inl ⟨cs, List.mem_cons_self _ _, hin⟩
        · exact Or.inr (List.mem_singleton.mp hone)
      · exact Or.inl ⟨cards, List.mem_cons_of_mem _ htail, hcard⟩
    · rcases List.mem_cons.mp hmem with heq | htail
      · injection heq with hq1 hq2
        refine Or.inl ⟨cs, ?_, hq2 ▸ hcard⟩
        rw [hq1]
        exact List.mem_cons_self _ _
      · rcases ih dk cards card htail hcard with ⟨cs', hcs', hc'⟩ | hc
        · exact Or.inl ⟨cs', List.mem_cons_of_mem _ hcs', hc'⟩
        · exact Or.inr hc

theorem parse_cards_fold_fields :
    ∀ (rows : List CardRow) (acc : List (Int × List AnkiCard)),
      (∀ dk cards card, (dk, cards) ∈ acc → card ∈ cards → 1 ≤ card.fields.length) →
      ∀ dk cards card,
        (dk, cards) ∈ rows.foldl
          (fun acc row =>
            pushCard acc row.did
              { id := row.id, note_id := row.nid, deck_id := row.did,
                fields := splitUnitSep (fieldsStrOfValue row.flds),
                media_references :=
                  extract_media_references (splitUnitSep (fieldsStrOfValue row.flds)) })
          acc →
        card ∈ cards → 1 ≤ card.fields.length := by
  intro rows
  induction rows with
  | nil => intro acc hacc dk cards card h1 h2; exact hacc dk cards card h1 h2
  | cons row t ih =>
    intro acc hacc dk cards card h1 h2
    rw [List.foldl_cons] at h1
    refine ih _ ?_ dk cards card h1 h2
    intro dk' cards' card' hmem hcard
    rcases pushCard_mem acc row.did _ dk' cards' card' hmem hcard with ⟨cs', hcs', hc'⟩ | hc
    · exact hacc dk' cs' card' hcs' hc'
    · subst hc
      have := splitUnitSep_ne_nil (fieldsStrOfValue row.flds)
      cases hsp : splitUnitSep (fieldsStrOfValue row.flds) with
      | nil => exact absurd hsp this
      | cons f fs => simp [hsp]

/-- C10: every card produced by parse_cards has at least one field — the
unit-separator split always yields at least one (possibly empty) piece,
whatever the stored column held (text, blob, NULL, or another type). -/
theorem C10_fields_nonempty (rows : List CardRow) (dk : Int)
    (cards : List AnkiCard) (card : AnkiCard)
    (h1 : (dk, cards) ∈ parse_cards rows) (h2 : card ∈ cards) :
    1 ≤ card.fields.length := by
  rw [parse_cards] at h1
  exact parse_cards_fold_fields rows [] (by simp) dk cards card h1 h2

/-- C10 witness: a single row whose field column has an unexpected type
still yields one card with one (empty) field. -/
theorem C10_fields_nonempty_witness :
    ((3 : Int), [AnkiCard.mk 1 2 3 [[]] []])
      ∈ parse_cards [CardRow.mk 1 2 3 SqlValue.other]
    ∧ 1 ≤ (AnkiCard.mk 1 2 3 [[]] []).fields.length := by
  refine ⟨by decide, ?_⟩
  exact C10_fields_nonempty [CardRow.mk 1 2 3 SqlValue.other]
    3 [AnkiCard.mk 1 2 3 [[]] []] (AnkiCard.mk 1 2 3 [[]] []) (by decide) (by decide)

/-! ### Claim C6 -/

/-- The data-map/filename-list invariant maintained by `insert`-only use of
the store (as `process_media` does): every key of the data map is on the
ordered filename list. -/
def StoreInv (st : AnkiMediaStore) : Prop :=
  ∀ k, assocContains st.data k = true → k ∈ st.filenames_list

theorem assocContains_assocSet (m : List (List Char × List Nat)) (f : List Char)
    (d : List Nat) (k : List Char) :
    assocContains (assocSet m f d) k = true → k = f ∨ assocContains m k = true := by
  induction m with
  | nil =>
    intro h
    simp [assocSet, assocContains] at h
    exact Or.inl h.symm
  | cons p t ih =>
    obtain ⟨k', v'⟩ := p
    intro h
    rw [assocSet] at h
    split at h
    · simp only [assocContains, List.any_cons] at h ⊢
      rcases Bool.or_eq_true_iff.mp h with h1 | h2
      · exact Or.inl (of_decide_eq_true h1).symm
      · exact Or.inr (Bool.or_eq_true_iff.mpr (Or.inr h2))
    · simp only [assocContains, List.any_cons] at h ⊢
      rcases Bool.or_eq_true_iff.mp h with h1 | h2
      · exact Or.inr (Bool.or_eq_true_iff.mpr (Or.inl h1))
      · rcases ih h2 with hl | hr
        · exact Or.inl hl
        · exact Or.inr (Bool.or_eq_true_iff.mpr (Or.inr hr))

theorem insert_mem_filenames (st : AnkiMediaStore) (f : List Char) (d : List Nat)
    (hinv : StoreInv st) : f ∈ (st.insert f d).filenames_list := by
  rw [AnkiMediaStore.insert]
  by_cases h : assocContains st.data f
  · simpa [h] using hinv f h
  · simp [h]

theorem insert_filenames_mono (st : AnkiMediaStore) (f : List Char) (d : List Nat)
    (g : List Char) (hg : g ∈ st.filenames_list) : g ∈ (st.insert f d).filenames_list := by
  rw [AnkiMediaStore.insert]
  by_cases h : assocContains st.data f <;> simp [h, hg]

theorem insert_preserves_inv (st : AnkiMediaStore) (f : List Char) (d : List Nat)
    (hinv : StoreInv st) : StoreInv (st.insert f d) := by
  intro k hk
  rw [AnkiMediaStore.insert] at hk ⊢
  rcases assocContains_assocSet st.data f d k hk with rfl | hold
  · exact insert_mem_filenames st k d hinv
  · exact insert_filenames_mono st f d k (hinv k hold)

theorem storeValidatedAsset_eq (st : AnkiMediaStore) (mt : MediaType) (f : List Char)
    (d : List Nat) : storeValidatedAsset st mt f d = st.insert f d := by
  rw [storeValidatedAsset]
  split <;> rfl

theorem processMediaGo_mono (extract : List Char → Except Unit (Option (List Nat)))
    (zdec : List Nat → Option (List Nat)) :
    ∀ (t : List (List Char × List Char)) (st st' : AnkiMediaStore),
      processMediaGo extract zdec t st = .ok st' →
      StoreInv st →
      StoreInv st' ∧ ∀ g ∈ st.filenames_list, g ∈ st'.filenames_list := by
  intro t
  induction t with
  | nil =>
    intro st st' h hinv
    rw [processMediaGo] at h
    injection h with h
    subst h
    exact ⟨hinv, fun g hg => hg⟩
  | cons e t ih =>
    intro st st' h hinv
    obtain ⟨index, filename⟩ := e
    rw [processMediaGo] at h
    split at h
    · exact ih st st' h hinv
    · split at h
      · exact absurd h (by simp)
      · exact ih st st' h hinv
      · rename_i data hq
        split at h
        · split at h
          · rename_i dd hdd
            rw [storeValidatedAsset_eq] at h
            have hinv' := insert_preserves_inv st filename dd hinv
            obtain ⟨hi, hm⟩ := ih _ st' h hinv'
            exact ⟨hi, fun g hg => hm g (insert_filenames_mono st filename dd g hg)⟩
          · exact ih st st' h hinv
        · rw [storeValidatedAsset_eq] at h
          have hinv' := insert_preserves_inv st filename data hinv
          obtain ⟨hi, hm⟩ := ih _ st' h hinv'
          exact ⟨hi, fun g hg => hm g (insert_filenames_mono st filename data g hg)⟩

theorem processMediaGo_stores (extract : List Char → Except Unit (Option (List Nat)))
    (zdec : List Nat → Option (List Nat)) :
    ∀ (mapping : List (List Char × List Char)) (st st' : AnkiMediaStore)
      (index filename : List Char) (data final : List Nat),
      processMediaGo extract zdec mapping st = .ok st' →
      StoreInv st →
      (index, filename) ∈ mapping →
      media_type_from_extension filename ≠ .unknown →
      extract index = .ok (some data) →
      (if is_zstd_compressed data then zdec data else some data) = some final →
      filename ∈ st'.filenames_list := by
  intro mapping
  induction mapping with
  | nil =>
    intro st st' index filename data final _ _ hmem
    exact absurd hmem (List.not_mem_nil _)
  | cons e t ih =>
    intro st st' index filename data final hrun hinv hmem hmt hex hdec
    obtain ⟨i0, f0⟩ := e
    rw [processMediaGo] at hrun
    rcases List.mem_cons.mp hmem with heq | htail
    · injection heq with hi0 hf0
      subst hi0; subst hf0
      rw [if_neg hmt] at hrun
      rw [hex] at hrun
      have hrun1 : (if is_zstd_compressed data then
            match zdec data with
            | some decompressed =>
              processMediaGo extract zdec t
                (storeValidatedAsset st (media_type_from_extension filename) filename
                  decompressed)
            | none => processMediaGo extract zdec t st
          else
            processMediaGo extract zdec t
              (storeValidatedAsset st (media_type_from_extension filename) filename data)) =
          Except.ok st' := hrun
      by_cases hz : is_zstd_compressed data
      · rw [if_pos hz] at hrun1
        rw [if_pos hz] at hdec
        rw [hdec] at hrun1
        have hrun2 : processMediaGo extract zdec t
            (storeValidatedAsset st (media_type_from_extension filename) filename final) =
            Except.ok st' := hrun1
        rw [storeValidatedAsset_eq] at hrun2
        have hst1 := insert_mem_filenames st filename final hinv
        exact ((processMediaGo_mono extract zdec t _ st' hrun2
          (insert_preserves_inv st filename final hinv)).2) filename hst1
      · rw [if_neg hz] at hrun1
        rw [if_neg hz] at hdec
        injection hdec with hfd
        subst hfd
        rw [storeValidatedAsset_eq] at hrun1
        have hst1 := insert_mem_filenames st filename data hinv
        exact ((processMediaGo_mono extract zdec t _ st' hrun1
          (insert_preserves_inv st filename data hinv)).2) filename hst1
    · split at hrun
      · exact ih st st' index filename data final hrun hinv htail hmt hex hdec
      · split at hrun
        · exact absurd hrun (by simp)
        · exact ih st st' index filename data final hrun hinv htail hmt hex hdec
        · rename_i d0 hq0
          split at hrun
          · split at hrun
            · rename_i dd hdd
              rw [storeValidatedAsset_eq] at hrun
              exact ih _ st' index filename data final hrun
                (insert_preserves_inv st f0 dd hinv) htail hmt hex hdec
            · exact ih st st' index filename data final hrun hinv htail hmt hex hdec
          · rw [storeValidatedAsset_eq] at hrun
            exact ih _ st' index filename data final hrun
              (insert_preserves_inv st f0 d0 hinv) htail hmt hex hdec

/-- C6: an asset-index entry whose filename has a known media extension,
whose archive entry is present, and whose bytes pass the (optional)
decompression step is present in the store after a successful run EVEN when
signature validation against its declared media type fails — validation is
advisory, never a filter. -/
theorem C6_invalid_signature_still_stored
    (mapping : List (List Char × List Char))
    (extract : List Char → Except Unit (Option (List Nat)))
    (zdec : List Nat → Option (List Nat))
    (index filename : List Char) (data final : List Nat) (st' : AnkiMediaStore)
    (hmem : (index, filename) ∈ mapping)
    (hmt : media_type_from_extension filename ≠ .unknown)
    (hex : extract index = .ok (some data))
    (hdec : (if is_zstd_compressed data then zdec data else some data) = some final)
    (hbad : isValidFor (media_type_from_extension filename) final = false)
    (hrun : process_media mapping extract zdec = .ok st') :
    filename ∈ st'.filenames_list := by
  rw [process_media] at hrun
  refine processMediaGo_stores extract zdec mapping AnkiMediaStore.new st'
    index filename data final hrun ?_ hmem hmt hex hdec
  intro k hk
  simp [AnkiMediaStore.new, assocContains] at hk

/-- C6 witness: the entry `("0", "a.mp3")` with bytes `[0,0,0,0]` — a valid
audio extension but an invalid audio signature — is in the store after the
run. -/
theorem C6_invalid_signature_still_stored_witness :
    isValidFor (media_type_from_extension ("a.mp3".toList)) [0, 0, 0, 0] = false
    ∧ "a.mp3".toList ∈ (AnkiMediaStore.mk [("a.mp3".toList, [0, 0, 0, 0])]
        ["a.mp3".toList]).filenames_list := by
  refine ⟨by decide, ?_⟩
  refine C6_invalid_signature_still_stored
    [("0".toList, "a.mp3".toList)]
    (fun i => if i = "0".toList then .ok (some [0, 0, 0, 0]) else .ok none)
    (fun _ => none)
    ("0".toList) ("a.mp3".toList) [0, 0, 0, 0] [0, 0, 0, 0] _
    (by decide) (by decide) (by rfl) (by decide) (by decide) (by rfl)

/-! ### Claim C8 -/

theorem rewriteAllGo_id (step : List Char → Option (Nat × List Char)) :
    ∀ (fuel : Nat) (s : List Char), hasMatch step s = false → rewriteAllGo step fuel s = s := by
  intro fuel
  induction fuel with
  | zero => intro s _; cases s <;> rfl
  | succ n ih =>
    intro s h
    cases s with
    | nil => rfl
    | cons c rest =>
      rw [hasMatch] at h
      obtain ⟨h1, h2⟩ := Bool.or_eq_false_iff.mp h
      have hnone : step (c :: rest) = none := Option.not_isSome_iff_eq_none.mp (by
        intro hs
        rw [hs] at h1
        exact Bool.noConfusion h1)
      rw [rewriteAllGo, hnone, ih rest h2]

theorem rewriteAll_id (step : List Char → Option (Nat × List Char)) (s : List Char)
    (h : hasMatch step s = false) : rewriteAll step s = s :=
  rewriteAllGo_id step s.length s h

theorem entity_fold_id :
    ∀ (tbl : List (List Char × List Char)) (s : List Char),
      tbl.all (fun p => !(hasMatch (litStep p.1 p.2) s)) = true →
      tbl.foldl (fun acc p => replaceSub p.1 p.2 acc) s = s := by
  intro tbl
  induction tbl with
  | nil => intro s _; rfl
  | cons p t ih =>
    intro s h
    rw [List.all_cons, Bool.and_eq_true] at h
    obtain ⟨h1, h2⟩ := h
    rw [List.foldl_cons]
    have hid : replaceSub p.1 p.2 s = s :=
      rewriteAll_id _ s (by simpa using h1)
    rw [hid]
    exact ih s h2

theorem clean_html_fix (s : List Char) (h : noMarkup s = true) : clean_html s = s := by
  rw [noMarkup] at h
  simp only [Bool.and_eq_true, Bool.not_eq_true', decide_eq_true_eq] at h
  obtain ⟨⟨⟨⟨⟨⟨⟨⟨⟨⟨⟨⟨⟨⟨h1, h2⟩, h3⟩, h4⟩, h5⟩, h6⟩, h7⟩, h8⟩, h9⟩, h10⟩,
    h11⟩, h12⟩, h13⟩, h14⟩, h15⟩ := h
  simp only [clean_html, decode_html_entities]
  rw [rewriteAll_id _ _ h1, rewriteAll_id _ _ h2, rewriteAll_id _ _ h3,
    rewriteAll_id _ _ h4, rewriteAll_id _ _ h5, rewriteAll_id _ _ h6,
    rewriteAll_id _ _ h7, rewriteAll_id _ _ h8, rewriteAll_id _ _ h9,
    rewriteAll_id _ _ h10]
  rw [entity_fold_id entityTable s (by
    rw [List.all_eq_true]
    intro p hp
    rw [List.all_eq_true] at h11
    exact h11 p hp)]
  rw [rewriteAll_id _ _ h12, rewriteAll_id _ _ h13, h14, rewriteAll_id _ _ h15]

/-- C8: the markup normalizer is idempotent on any input whose first pass
leaves no markup — no pattern of any of its rewriting passes (sound or img
references, tags, entities, numeric references, untrimmed whitespace, or a
triple-newline run) occurs in `clean_html x`. -/
theorem C8_clean_html_idempotent (x : List Char)
    (h : noMarkup (clean_html x) = true) :
    clean_html (clean_html x) = clean_html x :=
  clean_html_fix (clean_html x) h

/-- C8 witness: `"<b>Hi</b>"` normalizes to `"Hi"`, which contains no
markup, and a second pass leaves it unchanged. -/
theorem C8_clean_html_idempotent_witness :
    noMarkup (clean_html ("<b>Hi</b>".toList)) = true
    ∧ clean_html (clean_html ("<b>Hi</b>".toList)) = clean_html ("<b>Hi</b>".toList) :=
  ⟨by decide, C8_clean_html_idempotent ("<b>Hi</b>".toList) (by decide)⟩

/-! ### Claim C9 -/

/-- The decomposition a successful protobuf name read exhibits. -/
def ProtoNameShape (data : List Nat) (s : List Char) : Prop :=
  ∃ pre len payload suf,
    data = pre ++ 0x12 :: len :: (payload ++ suf)
    ∧ payload.length = len
    ∧ utf8Decode payload = some s

theorem protoNameShape_cons (tag : Nat) (rest sub : List Nat) (s : List Char)
    (hsub : sub <:+ rest) (hih : ProtoNameShape sub s) :
    ProtoNameShape (tag :: rest) s := by
  obtain ⟨u, hu⟩ := hsub
  obtain ⟨pre, len, payload, suf, h1, h2, h3⟩ := hih
  exact ⟨tag :: u ++ pre, len, payload, suf, by
    rw [← hu, h1]
    simp [List.append_assoc], h2, h3⟩

theorem protobufNameGo_sound :
    ∀ (fuel : Nat) (data : List Nat) (s : List Char),
      protobufNameGo fuel data = some s → ProtoNameShape data s := by
  intro fuel
  induction fuel with
  | zero =>
    intro data s h
    cases data <;> exact Option.noConfusion h
  | succ n ih =>
    intro data s h
    cases data with
    | nil => exact Option.noConfusion h
    | cons tag rest =>
      cases rest with
      | nil =>
        rw [protobufNameGo.eq_def] at h
        simp at h
      | cons len rest2 =>
        rw [protobufNameGo.eq_def] at h
        dsimp only [] at h
        split at h
        · exact Option.noConfusion h
        · split at h
          · rename_i h12
            split at h
            · rename_i hlen
              split at h
              · rename_i name hdecode
                injection h with hs
                subst hs
                subst h12
                exact ⟨[], len, rest2.take len, rest2.drop len,
                  by simp,
                  by rw [List.length_take]; omega, hdecode⟩
              · exact protoNameShape_cons tag (len :: rest2) rest2 s
                  (List.suffix_cons len rest2) (ih rest2 s h)
            · exact protoNameShape_cons tag (len :: rest2) rest2 s
                (List.suffix_cons len rest2) (ih rest2 s h)
          · split at h
            · exact protoNameShape_cons tag (len :: rest2) _ s
                ((List.drop_suffix 1 _).trans (List.dropWhile_suffix _)) (ih _ s h)
            · exact protoNameShape_cons tag (len :: rest2) _ s
                (List.drop_suffix 8 (len :: rest2)) (ih _ s h)
            · exact protoNameShape_cons tag (len :: rest2) (rest2.drop len) s
                ((List.drop_suffix len rest2).trans (List.suffix_cons len rest2)) (ih _ s h)
            · exact protoNameShape_cons tag (len :: rest2) _ s
                (List.drop_suffix 4 (len :: rest2)) (ih _ s h)
            · exact protoNameShape_cons tag (len :: rest2) _ s
                (List.drop_suffix 1 (len :: rest2)) (ih _ s h)

theorem protobufNameGo_no_tag :
    ∀ (fuel : Nat) (data : List Nat), (0x12 : Nat) ∉ data →
      protobufNameGo fuel data = none := by
  intro fuel
  induction fuel with
  | zero => intro data _; cases data <;> rfl
  | succ n ih =>
    intro data hd
    cases data with
    | nil => rfl
    | cons tag rest =>
      have htag : tag ≠ 0x12 := fun hh => hd (hh ▸ List.mem_cons_self tag rest)
      have hrest : (0x12 : Nat) ∉ rest := fun hh => hd (List.mem_cons_of_mem tag hh)
      cases rest with
      | nil =>
        rw [protobufNameGo.eq_def]
        simp
      | cons b rt =>
        rw [protobufNameGo.eq_def]
        dsimp only []
        rw [if_neg (by simp : ¬(b :: rt = [])), if_neg htag]
        split
        · exact ih _ (fun hh =>
            hrest (((List.drop_suffix 1 _).trans (List.dropWhile_suffix _)).sublist.mem hh))
        · exact ih _ (fun hh => hrest ((List.drop_suffix 8 (b :: rt)).sublist.mem hh))
        · exact ih _ (fun hh => hrest
            (((List.drop_suffix b rt).trans (List.suffix_cons b rt)).sublist.mem hh))
        · exact ih _ (fun hh => hrest ((List.drop_suffix 4 (b :: rt)).sublist.mem hh))
        · exact ih _ (fun hh => hrest ((List.drop_suffix 1 (b :: rt)).sublist.mem hh))

/-- C9: the restricted binary-record name reader is a total function of the
byte sequence (defined for every input); `some name` is returned only when
the input decomposes as some prefix, the wire tag `0x12`, a length byte
whose declared length fits within the remaining data, and a payload of
exactly that length that decodes as UTF-8 to the name; and when the tag byte
`0x12` occurs nowhere in the input the result is `none` — no name, not an
error. -/
theorem C9_protobuf_reader_sound (data : List Nat) :
    (∀ s, extract_name_from_protobuf data = some s →
      ∃ pre len payload suf,
        data = pre ++ 0x12 :: len :: (payload ++ suf)
        ∧ payload.length = len
        ∧ len ≤ (payload ++ suf).length
        ∧ utf8Decode payload = some s)
    ∧ ((0x12 : Nat) ∉ data → extract_name_from_protobuf data = none) := by
  constructor
  · intro s h
    obtain ⟨pre, len, payload, suf, h1, h2, h3⟩ :=
      protobufNameGo_sound data.length data s h
    exact ⟨pre, len, payload, suf, h1, h2, by simp only [List.length_append]; omega, h3⟩
  · intro hd
    exact protobufNameGo_no_tag data.length data hd

/-- C9 witness: `[0x12, 1, 0x41]` decodes to `"A"` with the stated
decomposition, and `[0, 1]` (no `0x12` byte) yields no name. -/
theorem C9_protobuf_reader_sound_witness :
    extract_name_from_protobuf [0x12, 1, 0x41] = some ("A".toList)
    ∧ (∃ pre len payload suf,
        ([0x12, 1, 0x41] : List Nat) = pre ++ 0x12 :: len :: (payload ++ suf)
        ∧ payload.length = len
        ∧ len ≤ (payload ++ suf).length
        ∧ utf8Decode payload = some ("A".toList))
    ∧ ((0x12 : Nat) ∉ ([0, 1] : List Nat))
    ∧ extract_name_from_protobuf [0, 1] = none :=
  ⟨by decide,
    (C9_protobuf_reader_sound [0x12, 1, 0x41]).1 ("A".toList) (by decide),
    by decide,
    (C9_protobuf_reader_sound [0, 1]).2 (by decide)⟩
